import Mathlib

/-!
Verification development for the warmane-pvp-analytics-api crawler
(`src/lib/crawler/crawler.ts`).

The data model (`MatchSummary`, `CharacterDetail`, `MatchDetails`) and the
match-detail aggregation pipeline (`getMatchDetails`, the field normalizer
and the team/bracket splitter of `extractMatchSummaries`) are embedded as
executable Lean functions.  Network effects are modelled by passing the
detail fetcher as an explicit function `String → Except FetchError _`
(character and realm are fixed for the duration of one call, so they are
absorbed into the fetcher).  The JavaScript regular expressions of the
source are embedded as recursive functions over `List Char` with the same
leftmost-match semantics (the relevant patterns admit no productive
backtracking, which the development makes precise where it matters).
-/

/-- One row of the match-history table (`MatchSummary` in crawler.ts). -/
structure MatchSummary where
  matchId : String
  team_name : String
  bracket : String
  outcome : String
  points_change : String
  date : String
  duration : String
  arena : String
deriving DecidableEq

/-- Raw per-character record returned by the detail endpoint
(`CharacterDetail` in crawler.ts); `class`, `race`, `gender` and
`matchmaking_change` are optional in the TypeScript interface. -/
structure CharacterDetail where
  realm : String
  charname : String
  «class» : Option String
  race : Option String
  gender : Option String
  teamname : String
  teamnamerich : String
  damageDone : String
  deaths : String
  healingDone : String
  killingBlows : String
  matchmaking_change : Option String
  personal_change : String
deriving DecidableEq

/-- Aggregate of summary fields plus character details (`MatchDetails`). -/
structure MatchDetails where
  matchId : String
  team_name : String
  bracket : String
  outcome : String
  points_change : String
  date : String
  duration : String
  arena : String
  character_details : List CharacterDetail
deriving DecidableEq

/-- The error kind of a failed remote fetch (spec §7: `RemoteFetchError`). -/
inductive FetchError where
  | RemoteFetchError : FetchError
deriving DecidableEq

/-- JavaScript regular-expression character class `\s` (whitespace). -/
def isJsSpace (c : Char) : Bool :=
  c = ' ' || c = '\t' || c = '\n' || c = '\u000b' || c = '\u000c' ||
    c = '\r' || c = ' ' || c = ' ' || c = ' ' ||
    c = ' ' || c = ' ' || c = ' ' || c = ' ' ||
    c = ' ' || c = ' ' || c = ' ' || c = ' ' ||
    c = ' ' || c = ' ' || c = ' ' || c = ' ' ||
    c = ' ' || c = ' ' || c = '　' || c = '﻿'

/-- JavaScript `.` (any character but a line terminator). -/
def isDotChar (c : Char) : Bool :=
  !(c = '\n' || c = '\r' || c = ' ' || c = ' ')

/-- Maximal (greedy) digit run at the head of the list (`\d+` / `\d{1,}`):
returns the run and the remainder. -/
def takeDigits : List Char → List Char × List Char
  | [] => ([], [])
  | c :: cs =>
    if c.isDigit then
      let p := takeDigits cs
      (c :: p.1, p.2)
    else ([], c :: cs)

/-- Greedy whitespace skip (`\s*`). -/
def dropSpaces : List Char → List Char
  | [] => []
  | c :: cs => if isJsSpace c then dropSpaces cs else c :: cs

/-- After an opening `<` and one non-`>` character: scan to the first `>`
(the tail of `<[^>]+>`), returning the remainder past it. -/
def scanTagRest : List Char → Option (List Char)
  | [] => none
  | c :: cs => if c = '>' then some cs else scanTagRest cs

/-- Attempt the suffix `[^>]+>` of the tag pattern `<[^>]+>` just after an
opening `<`: at least one non-`>` character, then the first `>`. -/
def scanTag : List Char → Option (List Char)
  | [] => none
  | c :: cs => if c = '>' then none else scanTagRest cs

/-- Fueled global replacement of `/<[^>]+>/g` with the empty string: scan
left to right, and whenever the tag pattern matches at the current
position, drop the matched span and continue after it.  The fuel (the
input length suffices) only discharges termination. -/
def stripTagsFuel : Nat → List Char → List Char
  | _, [] => []
  | 0, l => l
  | Nat.succ n, c :: cs =>
    if c = '<' then
      match scanTag cs with
      | some rest => stripTagsFuel n rest
      | none => c :: stripTagsFuel n cs
    else c :: stripTagsFuel n cs

/-- The global replacement `teamnamerich.replace(/<[^>]+>/g, "")` on the
character-list view. -/
def stripTagsList (l : List Char) : List Char :=
  stripTagsFuel l.length l

/-- The literal text `</span` of the lookahead in `changeRegex`. -/
def spanClose : List Char := ['<', '/', 's', 'p', 'a', 'n']

/-- The literal text `(<span` of the lookahead in `overallRegex`. -/
def spanOpen : List Char := ['(', '<', 's', 'p', 'a', 'n']

/-- Attempt `/((\+|-)\d+)(?=<\/span)/` at the current position: a sign,
a nonempty greedy digit run, and the literal lookahead `</span`.
(Shortening the greedy run cannot help: the next character would be a
digit, never `<`, so the embedding needs no backtracking.) -/
def changeAt : List Char → Option (List Char)
  | [] => none
  | c :: cs =>
    if c = '+' ∨ c = '-' then
      let ds := (takeDigits cs).1
      let rest := (takeDigits cs).2
      if ds = [] then none
      else if List.isPrefixOf spanClose rest then some (c :: ds)
      else none
    else none

/-- The call `raw.match(changeRegex)` — leftmost match of
`/((\+|-)\d+)(?=<\/span)/`, returning `match[0]`. -/
def findChange : List Char → Option (List Char)
  | [] => none
  | c :: cs =>
    match changeAt (c :: cs) with
    | some m => some m
    | none => findChange cs

/-- Attempt `/(-?\d{1,})(?=\s*\(<span)/` at the current position: an
optional minus, a nonempty greedy digit run, and the lookahead
`\s*(<span`.  (As above, no productive backtracking exists: a shortened
digit run is followed by a digit, which is neither whitespace nor `(`,
and fewer skipped spaces leave a space where `(` is required.) -/
def overallAt : List Char → Option (List Char)
  | [] => none
  | c :: cs =>
    if c = '-' then
      let ds := (takeDigits cs).1
      let rest := (takeDigits cs).2
      if ds = [] then none
      else if List.isPrefixOf spanOpen (dropSpaces rest) then
        some ('-' :: ds)
      else none
    else
      let ds := (takeDigits (c :: cs)).1
      let rest := (takeDigits (c :: cs)).2
      if ds = [] then none
      else if List.isPrefixOf spanOpen (dropSpaces rest) then some ds
      else none

/-- The call `raw.match(overallRegex)` — leftmost match of
`/(-?\d{1,})(?=\s*\(<span)/`, returning `match[0]`. -/
def findOverall : List Char → Option (List Char)
  | [] => none
  | c :: cs =>
    match overallAt (c :: cs) with
    | some m => some m
    | none => findOverall cs

/-- Normalization of one change field: if both the delta and the overall
extraction succeed the field becomes `"<delta> (<overall>)"`
(template literal of crawler.ts line 200/211); otherwise the raw value
is kept. -/
def normalizeChange (s : String) : String :=
  match findChange s.data, findOverall s.data with
  | some d, some o => String.mk d ++ " (" ++ String.mk o ++ ")"
  | _, _ => s

/-- The Field Normalizer (the `forEach` body of crawler.ts lines
184–214): strip markup from `teamnamerich`; then, for each change field
that is present and non-empty (JavaScript truthiness), rewrite it when
both extractions succeed. -/
def normalizeCharacterDetail (cd : CharacterDetail) : CharacterDetail :=
  let cd1 := { cd with
    teamnamerich := String.mk (stripTagsList cd.teamnamerich.data) }
  let cd2 :=
    match cd1.matchmaking_change with
    | some s =>
      if s = "" then cd1
      else { cd1 with matchmaking_change := some (normalizeChange s) }
    | none => cd1
  if cd2.personal_change = "" then cd2
  else { cd2 with personal_change := normalizeChange cd2.personal_change }

/-- The spread `...matchSummary` plus `character_details` — all summary fields
into a MatchDetails record (crawler.ts lines 223–226). -/
def mkMatchDetails (s : MatchSummary) (cds : List CharacterDetail) :
    MatchDetails :=
  { matchId := s.matchId
    team_name := s.team_name
    bracket := s.bracket
    outcome := s.outcome
    points_change := s.points_change
    date := s.date
    duration := s.duration
    arena := s.arena
    character_details := cds }

/-- The per-identifier loop of `getMatchDetails` (crawler.ts lines
176–230): fetch, normalize every character detail, look up the first
summary with the same `matchId`, and append the combined record when one
exists; a fetch failure aborts the whole computation. -/
def getMatchDetailsGo (fetch : String → Except FetchError (List CharacterDetail))
    (matchSummaries : List MatchSummary) :
    List String → Except FetchError (List MatchDetails)
  | [] => Except.ok []
  | matchId :: rest =>
    match fetch matchId with
    | Except.error e => Except.error e
    | Except.ok characterDetails =>
      let normalized := characterDetails.map normalizeCharacterDetail
      match matchSummaries.find? (fun summary => summary.matchId == matchId) with
      | some matchSummary =>
        match getMatchDetailsGo fetch matchSummaries rest with
        | Except.error e => Except.error e
        | Except.ok tail =>
          Except.ok (mkMatchDetails matchSummary normalized :: tail)
      | none => getMatchDetailsGo fetch matchSummaries rest

/-- The method `WarmaneCrawler.getMatchDetails` (crawler.ts lines 160–232): extract
the identifier list from the summaries, then run the loop. -/
def getMatchDetails (fetch : String → Except FetchError (List CharacterDetail))
    (matchSummaries : List MatchSummary) :
    Except FetchError (List MatchDetails) :=
  getMatchDetailsGo fetch matchSummaries
    (matchSummaries.map (fun summary => summary.matchId))

/-- Attempt the tail `\s*\((\d+v\d+)\)` of the team/bracket pattern
`/(.*?)\s*\((\d+v\d+)\)/` at the current position, returning the bracket
capture group. -/
def tbTail (l : List Char) : Option (List Char) :=
  match dropSpaces l with
  | '(' :: l2 =>
    match takeDigits l2 with
    | ([], _) => none
    | (d :: ds, r1) =>
      match r1 with
      | 'v' :: r2 =>
        match takeDigits r2 with
        | ([], _) => none
        | (e :: es, r3) =>
          match r3 with
          | ')' :: _ => some (d :: ds ++ 'v' :: e :: es)
          | _ => none
      | _ => none
  | _ => none

/-- The lazy group `(.*?)` of the team/bracket pattern, tried at one start
position: grow the captured prefix one (non–line-terminator) character at
a time until the tail pattern matches.  Returns the two capture groups
(team name, bracket). -/
def tbFrom : List Char → List Char → Option (List Char × List Char)
  | acc, l =>
    match tbTail l with
    | some br => some (acc.reverse, br)
    | none =>
      match l with
      | [] => none
      | c :: cs => if isDotChar c then tbFrom (c :: acc) cs else none

/-- Leftmost unanchored match of `/(.*?)\s*\((\d+v\d+)\)/`: try each start
position left to right. -/
def tbSearch : List Char → Option (List Char × List Char)
  | [] => tbFrom [] []
  | c :: cs =>
    match tbFrom [] (c :: cs) with
    | some r => some r
    | none => tbSearch cs

/-- The team/bracket split of `extractMatchSummaries` (crawler.ts lines
86–101): empty text (JavaScript falsiness) or a failed match yields two
empty strings; a match yields the two capture groups. -/
def splitTeamBracket (s : String) : String × String :=
  if s = "" then ("", "")
  else
    match tbSearch s.data with
    | some (tn, br) => (String.mk tn, String.mk br)
    | none => ("", "")

/-- A `changeRegex` match exists somewhere in the value: it contains a
sign, a nonempty digit run, and then the literal text `</span`. -/
def changeSpec (s : List Char) : Prop :=
  ∃ a c ds b, s = a ++ c :: (ds ++ (spanClose ++ b)) ∧
    (c = '+' ∨ c = '-') ∧ ds ≠ [] ∧ ∀ d ∈ ds, d.isDigit = true

/-- An `overallRegex` match exists somewhere in the value: it contains an
optional minus, a nonempty digit run, optional whitespace, and then the
literal text `(<span`. -/
def overallSpec (s : List Char) : Prop :=
  ∃ a m ds ws b,
    s = a ++ (m ++ (ds ++ (ws ++ (spanOpen ++ b)))) ∧
    (m = [] ∨ m = ['-']) ∧ ds ≠ [] ∧ (∀ d ∈ ds, d.isDigit = true) ∧
    ∀ w ∈ ws, isJsSpace w = true

/-- Sample summary used by concrete witnesses. -/
def sampleSummary (id : String) : MatchSummary :=
  { matchId := id
    team_name := "Alpha Strike"
    bracket := "2v2"
    outcome := "Victory"
    points_change := "+12"
    date := "21-09-2023"
    duration := "4m"
    arena := "Ring of Valor" }

/-- Sample character detail used by concrete witnesses. -/
def sampleDetail : CharacterDetail :=
  { realm := "Icecrown"
    charname := "Abikuneebus"
    «class» := none
    race := none
    gender := none
    teamname := "Team Alpha"
    teamnamerich := "<span>Team Alpha</span>"
    damageDone := "1000"
    deaths := "0"
    healingDone := "50"
    killingBlows := "2"
    matchmaking_change := none
    personal_change := "200 (<span>+15</span>)" }

/-- Fetcher used by concrete witnesses: one character detail per match. -/
def sampleFetch (_id : String) : Except FetchError (List CharacterDetail) :=
  Except.ok [sampleDetail]

/-- Fetcher used by the C3 witness: fails (only) for identifier `B`. -/
def failFetchB (id : String) : Except FetchError (List CharacterDetail) :=
  if id == "B" then Except.error FetchError.RemoteFetchError
  else Except.ok [sampleDetail]

/-- The concrete output of `getMatchDetails` on the sample inputs. -/
def sampleOut : List MatchDetails :=
  [mkMatchDetails (sampleSummary ("A")) [normalizeCharacterDetail sampleDetail]]

/-! ### Helper lemmas about the character-class and scanning functions -/

theorem takeDigits_append : ∀ l : List Char, (takeDigits l).1 ++ (takeDigits l).2 = l
  | [] => rfl
  | c :: cs => by
    by_cases h : c.isDigit
    · simpa [takeDigits, h] using takeDigits_append cs
    · simp [takeDigits, h]

theorem takeDigits_isDigit : ∀ l : List Char, ∀ c ∈ (takeDigits l).1, c.isDigit = true
  | [] => by simp [takeDigits]
  | c :: cs => by
    by_cases h : c.isDigit
    · simpa [takeDigits, h] using takeDigits_isDigit cs
    · simp [takeDigits, h]

theorem takeDigits_of : ∀ (ds r : List Char), (∀ c ∈ ds, c.isDigit = true) →
    (∀ c, r.head? = some c → c.isDigit = false) → takeDigits (ds ++ r) = (ds, r)
  | [], r, _, hr => by
    cases r with
    | nil => rfl
    | cons c cs => simp [takeDigits, hr c rfl]
  | d :: ds, r, hds, hr => by
    have hd : d.isDigit = true := hds d (List.mem_cons_self d ds)
    have ih := takeDigits_of ds r (fun c hc => hds c (List.mem_cons_of_mem d hc)) hr
    simp [takeDigits, hd, ih]

theorem dropSpaces_decomp : ∀ l : List Char,
    ∃ ws, (∀ c ∈ ws, isJsSpace c = true) ∧ l = ws ++ dropSpaces l
  | [] => ⟨[], by simp, by simp [dropSpaces]⟩
  | c :: cs => by
    by_cases h : isJsSpace c
    · obtain ⟨ws, hws, heq⟩ := dropSpaces_decomp cs
      refine ⟨c :: ws, ?_, ?_⟩
      · intro d hd
        rcases List.mem_cons.mp hd with rfl | hd
        · exact h
        · exact hws d hd
      · simp [dropSpaces, h]
        exact heq
    · exact ⟨[], by simp, by simp [dropSpaces, h]⟩

theorem dropSpaces_of : ∀ (ws r : List Char), (∀ c ∈ ws, isJsSpace c = true) →
    (∀ c, r.head? = some c → isJsSpace c = false) → dropSpaces (ws ++ r) = r
  | [], r, _, hr => by
    cases r with
    | nil => rfl
    | cons c cs => simp [dropSpaces, hr c rfl]
  | w :: ws, r, hws, hr => by
    have hw : isJsSpace w = true := hws w (List.mem_cons_self w ws)
    have ih := dropSpaces_of ws r (fun c hc => hws c (List.mem_cons_of_mem w hc)) hr
    simp [dropSpaces, hw, ih]

theorem isPrefixOf_iff : ∀ l s : List Char, List.isPrefixOf l s = true ↔ ∃ t, s = l ++ t
  | [], s => by simp [List.isPrefixOf]
  | c :: cs, [] => by simp [List.isPrefixOf]
  | c :: cs, d :: ds => by
    simp only [List.isPrefixOf, Bool.and_eq_true, beq_iff_eq, isPrefixOf_iff cs ds,
      List.cons_append, List.cons.injEq]
    constructor
    · rintro ⟨rfl, t, rfl⟩
      exact ⟨t, rfl, rfl⟩
    · rintro ⟨t, rfl, rfl⟩
      exact ⟨rfl, t, rfl⟩

theorem isJsSpace_not_digit {c : Char} (h : isJsSpace c = true) : c.isDigit = false := by
  simp only [isJsSpace, Bool.or_eq_true, decide_eq_true_eq] at h
  repeat rcases h with h | rfl
  all_goals rfl

theorem isDigit_ne_minus {c : Char} (h : c.isDigit = true) : c ≠ '-' := by
  intro hc
  subst hc
  simp [Char.isDigit] at h

theorem isDigit_ne_lt {c : Char} (h : c.isDigit = true) : c ≠ '<' := by
  intro hc
  subst hc
  simp [Char.isDigit] at h


/-! ### Characterization of the two change-field regular expressions -/

theorem changeAt_some {l m : List Char} (h : changeAt l = some m) :
    ∃ c ds b, l = c :: (ds ++ (spanClose ++ b)) ∧ (c = '+' ∨ c = '-') ∧
      ds ≠ [] ∧ (∀ d ∈ ds, d.isDigit = true) ∧ m = c :: ds := by
  match l with
  | [] => simp [changeAt] at h
  | c :: cs =>
    obtain ⟨ds, rest, hpair⟩ : ∃ ds rest, takeDigits cs = (ds, rest) := ⟨_, _, rfl⟩
    have hdig : ∀ d ∈ ds, d.isDigit = true := by
      have h2 := takeDigits_isDigit cs
      rw [hpair] at h2
      exact h2
    have hcs : ds ++ rest = cs := by
      have h2 := takeDigits_append cs
      rw [hpair] at h2
      exact h2
    simp only [changeAt, hpair] at h
    by_cases hc : c = '+' ∨ c = '-'
    · rw [if_pos hc] at h
      by_cases hds : ds = []
      · rw [if_pos hds] at h
        exact absurd h (by simp)
      · rw [if_neg hds] at h
        by_cases hp : List.isPrefixOf spanClose rest = true
        · rw [if_pos hp] at h
          obtain ⟨t, ht⟩ := (isPrefixOf_iff _ _).mp hp
          refine ⟨c, ds, t, ?_, hc, hds, hdig, (Option.some.inj h).symm⟩
          rw [← hcs, ht]
        · rw [if_neg hp] at h
          exact absurd h (by simp)
    · rw [if_neg hc] at h
      exact absurd h (by simp)

theorem changeAt_of {c : Char} {ds b : List Char} (hc : c = '+' ∨ c = '-')
    (hds : ds ≠ []) (hdig : ∀ d ∈ ds, d.isDigit = true) :
    changeAt (c :: (ds ++ (spanClose ++ b))) = some (c :: ds) := by
  have hhead : ∀ x : Char, ((spanClose ++ b) : List Char).head? = some x →
      x.isDigit = false := by
    intro x hx
    have h2 : ((spanClose ++ b) : List Char).head? = some '<' := rfl
    rw [h2] at hx
    rw [← Option.some.inj hx]
    rfl
  have htd := takeDigits_of ds (spanClose ++ b) hdig hhead
  have hpre : List.isPrefixOf spanClose (spanClose ++ b) = true :=
    (isPrefixOf_iff _ _).mpr ⟨b, rfl⟩
  simp only [changeAt, htd]
  rw [if_pos hc, if_neg hds, if_pos hpre]

theorem findChange_some_spec : ∀ {s m : List Char}, findChange s = some m → changeSpec s := by
  intro s
  induction s with
  | nil => intro m h; simp [findChange] at h
  | cons c cs ih =>
    intro m h
    simp only [findChange] at h
    cases hat : changeAt (c :: cs) with
    | some m2 =>
      obtain ⟨c0, ds, b, heq, hc0, hds, hdig, _⟩ := changeAt_some hat
      exact ⟨[], c0, ds, b, by simpa using heq, hc0, hds, hdig⟩
    | none =>
      rw [hat] at h
      simp only at h
      obtain ⟨a, c0, ds, b, heq, hc0, hds, hdig⟩ := ih h
      exact ⟨c :: a, c0, ds, b, by simp [heq], hc0, hds, hdig⟩

theorem findChange_suffix : ∀ (a : List Char) {l2 m : List Char}, changeAt l2 = some m →
    (findChange (a ++ l2)).isSome = true := by
  intro a
  induction a with
  | nil =>
    intro l2 m h
    cases l2 with
    | nil => simp [changeAt] at h
    | cons c cs => simp [findChange, h]
  | cons x xs ih =>
    intro l2 m h
    simp only [List.cons_append, findChange]
    cases hat : changeAt (x :: (xs ++ l2)) with
    | some m2 => simp
    | none => simpa using ih h

theorem findChange_isSome_iff (s : List Char) : (findChange s).isSome = true ↔ changeSpec s := by
  constructor
  · intro h
    cases hfc : findChange s with
    | none => rw [hfc] at h; simp at h
    | some m => exact findChange_some_spec hfc
  · rintro ⟨a, c, ds, b, rfl, hc, hds, hdig⟩
    exact findChange_suffix a (changeAt_of hc hds hdig)

theorem overallAt_some {l m0 : List Char} (h : overallAt l = some m0) :
    ∃ mm ds ws b, l = mm ++ (ds ++ (ws ++ (spanOpen ++ b))) ∧
      (mm = [] ∨ mm = ['-']) ∧ ds ≠ [] ∧ (∀ d ∈ ds, d.isDigit = true) ∧
      (∀ w ∈ ws, isJsSpace w = true) ∧ m0 = mm ++ ds := by
  match l with
  | [] => simp [overallAt] at h
  | c :: cs =>
    by_cases hc : c = '-'
    · obtain ⟨ds, rest, hpair⟩ : ∃ ds rest, takeDigits cs = (ds, rest) := ⟨_, _, rfl⟩
      have hdig : ∀ d ∈ ds, d.isDigit = true := by
        have h2 := takeDigits_isDigit cs
        rw [hpair] at h2
        exact h2
      have hcs : ds ++ rest = cs := by
        have h2 := takeDigits_append cs
        rw [hpair] at h2
        exact h2
      simp only [overallAt, hpair, if_pos hc] at h
      by_cases hds : ds = []
      · rw [if_pos hds] at h
        exact absurd h (by simp)
      · rw [if_neg hds] at h
        by_cases hp : List.isPrefixOf spanOpen (dropSpaces rest) = true
        · rw [if_pos hp] at h
          obtain ⟨t, ht⟩ := (isPrefixOf_iff _ _).mp hp
          obtain ⟨ws, hws, hdec⟩ := dropSpaces_decomp rest
          rw [ht] at hdec
          refine ⟨['-'], ds, ws, t, ?_, Or.inr rfl, hds, hdig, hws,
            (Option.some.inj h).symm⟩
          rw [← hcs, hdec, hc]
          rfl
        · rw [if_neg hp] at h
          exact absurd h (by simp)
    · obtain ⟨ds, rest, hpair⟩ : ∃ ds rest, takeDigits (c :: cs) = (ds, rest) := ⟨_, _, rfl⟩
      have hdig : ∀ d ∈ ds, d.isDigit = true := by
        have h2 := takeDigits_isDigit (c :: cs)
        rw [hpair] at h2
        exact h2
      have hcs : ds ++ rest = c :: cs := by
        have h2 := takeDigits_append (c :: cs)
        rw [hpair] at h2
        exact h2
      simp only [overallAt, hpair, if_neg hc] at h
      by_cases hds : ds = []
      · rw [if_pos hds] at h
        exact absurd h (by simp)
      · rw [if_neg hds] at h
        by_cases hp : List.isPrefixOf spanOpen (dropSpaces rest) = true
        · rw [if_pos hp] at h
          obtain ⟨t, ht⟩ := (isPrefixOf_iff _ _).mp hp
          obtain ⟨ws, hws, hdec⟩ := dropSpaces_decomp rest
          rw [ht] at hdec
          refine ⟨[], ds, ws, t, ?_, Or.inl rfl, hds, hdig, hws,
            (Option.some.inj h).symm⟩
          rw [List.nil_append, ← hcs, hdec]
        · rw [if_neg hp] at h
          exact absurd h (by simp)

theorem overallAt_of_nil {ds ws b : List Char}
    (hds : ds ≠ []) (hdig : ∀ d ∈ ds, d.isDigit = true)
    (hws : ∀ w ∈ ws, isJsSpace w = true) :
    overallAt (ds ++ (ws ++ (spanOpen ++ b))) = some ds := by
  have hhead : ∀ x : Char, ((ws ++ (spanOpen ++ b)) : List Char).head? = some x →
      x.isDigit = false := by
    intro x hx
    cases ws with
    | nil =>
      have h2 : ((([] : List Char) ++ (spanOpen ++ b)) : List Char).head? = some '(' := rfl
      rw [h2] at hx
      rw [← Option.some.inj hx]
      rfl
    | cons w ws2 =>
      have h2 : (((w :: ws2) ++ (spanOpen ++ b)) : List Char).head? = some w := rfl
      rw [h2] at hx
      rw [← Option.some.inj hx]
      exact isJsSpace_not_digit (hws w (List.mem_cons_self w ws2))
  have hdrop : dropSpaces (ws ++ (spanOpen ++ b)) = spanOpen ++ b := by
    refine dropSpaces_of ws _ hws ?_
    intro x hx
    have h2 : ((spanOpen ++ b) : List Char).head? = some '(' := rfl
    rw [h2] at hx
    rw [← Option.some.inj hx]
    rfl
  have hpre : List.isPrefixOf spanOpen (spanOpen ++ b) = true :=
    (isPrefixOf_iff _ _).mpr ⟨b, rfl⟩
  match ds, hds with
  | d :: ds2, _ =>
    have hdig2 : ∀ x ∈ d :: ds2, x.isDigit = true := hdig
    have hd : d.isDigit = true := hdig2 d (List.mem_cons_self d ds2)
    have hcm : ¬(d = '-') := isDigit_ne_minus hd
    have htd := takeDigits_of (d :: ds2) (ws ++ (spanOpen ++ b)) hdig2 hhead
    rw [List.cons_append] at htd
    rw [List.cons_append]
    simp only [overallAt, if_neg hcm, htd]
    rw [if_neg (by simp : ¬(d :: ds2 = [])), hdrop, if_pos hpre]

theorem overallAt_of_minus {ds ws b : List Char}
    (hds : ds ≠ []) (hdig : ∀ d ∈ ds, d.isDigit = true)
    (hws : ∀ w ∈ ws, isJsSpace w = true) :
    overallAt ('-' :: (ds ++ (ws ++ (spanOpen ++ b)))) = some ('-' :: ds) := by
  have hhead : ∀ x : Char, ((ws ++ (spanOpen ++ b)) : List Char).head? = some x →
      x.isDigit = false := by
    intro x hx
    cases ws with
    | nil =>
      have h2 : ((([] : List Char) ++ (spanOpen ++ b)) : List Char).head? = some '(' := rfl
      rw [h2] at hx
      rw [← Option.some.inj hx]
      rfl
    | cons w ws2 =>
      have h2 : (((w :: ws2) ++ (spanOpen ++ b)) : List Char).head? = some w := rfl
      rw [h2] at hx
      rw [← Option.some.inj hx]
      exact isJsSpace_not_digit (hws w (List.mem_cons_self w ws2))
  have hdrop : dropSpaces (ws ++ (spanOpen ++ b)) = spanOpen ++ b := by
    refine dropSpaces_of ws _ hws ?_
    intro x hx
    have h2 : ((spanOpen ++ b) : List Char).head? = some '(' := rfl
    rw [h2] at hx
    rw [← Option.some.inj hx]
    rfl
  have hpre : List.isPrefixOf spanOpen (spanOpen ++ b) = true :=
    (isPrefixOf_iff _ _).mpr ⟨b, rfl⟩
  have htd := takeDigits_of ds (ws ++ (spanOpen ++ b)) hdig hhead
  simp [overallAt, htd, hdrop, hds, hpre]

theorem findOverall_some_spec : ∀ {s m : List Char}, findOverall s = some m → overallSpec s := by
  intro s
  induction s with
  | nil => intro m h; simp [findOverall] at h
  | cons c cs ih =>
    intro m h
    simp only [findOverall] at h
    cases hat : overallAt (c :: cs) with
    | some m2 =>
      obtain ⟨mm, ds, ws, b, heq, hmm, hds, hdig, hws, _⟩ := overallAt_some hat
      exact ⟨[], mm, ds, ws, b, by simpa using heq, hmm, hds, hdig, hws⟩
    | none =>
      rw [hat] at h
      simp only at h
      obtain ⟨a, mm, ds, ws, b, heq, hmm, hds, hdig, hws⟩ := ih h
      exact ⟨c :: a, mm, ds, ws, b, by simp [heq], hmm, hds, hdig, hws⟩

theorem findOverall_suffix : ∀ (a : List Char) {l2 m : List Char}, overallAt l2 = some m →
    (findOverall (a ++ l2)).isSome = true := by
  intro a
  induction a with
  | nil =>
    intro l2 m h
    cases l2 with
    | nil => simp [overallAt] at h
    | cons c cs => simp [findOverall, h]
  | cons x xs ih =>
    intro l2 m h
    simp only [List.cons_append, findOverall]
    cases hat : overallAt (x :: (xs ++ l2)) with
    | some m2 => simp
    | none => simpa using ih h

theorem findOverall_isSome_iff (s : List Char) :
    (findOverall s).isSome = true ↔ overallSpec s := by
  constructor
  · intro h
    cases hfc : findOverall s with
    | none => rw [hfc] at h; simp at h
    | some m => exact findOverall_some_spec hfc
  · rintro ⟨a, mm, ds, ws, b, rfl, hmm, hds, hdig, hws⟩
    rcases hmm with rfl | rfl
    · exact findOverall_suffix a (by simpa using overallAt_of_nil hds hdig hws)
    · exact findOverall_suffix a (overallAt_of_minus hds hdig hws)

/-! ### Lemmas about markup stripping -/

theorem scanTagRest_length : ∀ {l r : List Char}, scanTagRest l = some r → r.length < l.length := by
  intro l
  induction l with
  | nil => intro r h; simp [scanTagRest] at h
  | cons c cs ih =>
    intro r h
    simp only [scanTagRest] at h
    by_cases hc : c = '>'
    · rw [if_pos hc] at h
      rw [← Option.some.inj h]
      simp
    · rw [if_neg hc] at h
      exact Nat.lt_trans (ih h) (by simp)

theorem scanTag_length {l r : List Char} (h : scanTag l = some r) : r.length < l.length := by
  match l with
  | [] => simp [scanTag] at h
  | c :: cs =>
    simp only [scanTag] at h
    by_cases hc : c = '>'
    · rw [if_pos hc] at h
      exact absurd h (by simp)
    · rw [if_neg hc] at h
      exact Nat.lt_trans (scanTagRest_length h) (by simp)

theorem stripTagsFuel_congr : ∀ (n m : Nat) (l : List Char), l.length ≤ n → l.length ≤ m →
    stripTagsFuel n l = stripTagsFuel m l := by
  intro n
  induction n with
  | zero =>
    intro m l hn _
    have hl : l = [] := List.eq_nil_of_length_eq_zero (Nat.le_zero.mp hn)
    subst hl
    cases m <;> rfl
  | succ n ih =>
    intro m l hn hm
    cases l with
    | nil => cases m <;> rfl
    | cons c cs =>
      cases m with
      | zero => simp at hm
      | succ m2 =>
        have hn2 : cs.length ≤ n := Nat.succ_le_succ_iff.mp (by simpa using hn)
        have hm2 : cs.length ≤ m2 := Nat.succ_le_succ_iff.mp (by simpa using hm)
        show stripTagsFuel (Nat.succ n) (c :: cs) = stripTagsFuel (Nat.succ m2) (c :: cs)
        simp only [stripTagsFuel]
        by_cases hc : c = '<'
        · rw [if_pos hc, if_pos hc]
          cases hscan : scanTag cs with
          | some rest =>
            have hr := scanTag_length hscan
            exact ih m2 rest (Nat.le_trans (Nat.le_of_lt hr) hn2)
              (Nat.le_trans (Nat.le_of_lt hr) hm2)
          | none => rw [ih m2 cs hn2 hm2]
        · rw [if_neg hc, if_neg hc, ih m2 cs hn2 hm2]

theorem stripTagsList_cons_ne {c : Char} {cs : List Char} (h : c ≠ '<') :
    stripTagsList (c :: cs) = c :: stripTagsList cs := by
  show stripTagsFuel (c :: cs).length (c :: cs) = c :: stripTagsFuel cs.length cs
  simp only [List.length_cons, stripTagsFuel, if_neg h]

theorem stripTagsList_tag {cs rest : List Char} (h : scanTag cs = some rest) :
    stripTagsList ('<' :: cs) = stripTagsList rest := by
  show stripTagsFuel ('<' :: cs).length ('<' :: cs) = stripTagsFuel rest.length rest
  simp only [List.length_cons, stripTagsFuel, if_pos (rfl : ('<' : Char) = '<'), h]
  exact stripTagsFuel_congr _ _ _ (Nat.le_of_lt (scanTag_length h)) (Nat.le_refl _)

theorem stripTagsList_lt_none {cs : List Char} (h : scanTag cs = none) :
    stripTagsList ('<' :: cs) = '<' :: stripTagsList cs := by
  show stripTagsFuel ('<' :: cs).length ('<' :: cs) = '<' :: stripTagsFuel cs.length cs
  simp only [List.length_cons, stripTagsFuel, if_pos (rfl : ('<' : Char) = '<'), h, if_true]

theorem scanTagRest_of : ∀ (u r : List Char), (∀ c ∈ u, c ≠ '>') →
    scanTagRest (u ++ '>' :: r) = some r := by
  intro u
  induction u with
  | nil => intro r _; simp [scanTagRest]
  | cons d u2 ih =>
    intro r h
    have hd : d ≠ '>' := h d (List.mem_cons_self d u2)
    simp only [List.cons_append, scanTagRest, if_neg hd]
    exact ih r (fun c hc => h c (List.mem_cons_of_mem d hc))

theorem scanTag_of {t r : List Char} (ht : t ≠ []) (h : ∀ c ∈ t, c ≠ '>') :
    scanTag (t ++ '>' :: r) = some r := by
  match t, ht with
  | d :: t2, _ =>
    have hd : d ≠ '>' := h d (List.mem_cons_self d t2)
    simp only [List.cons_append, scanTag, if_neg hd]
    exact scanTagRest_of t2 r (fun c hc => h c (List.mem_cons_of_mem d hc))

/-! ### Lemmas about the aggregation loop -/

theorem getMatchDetailsGo_ok (fetch : String → Except FetchError (List CharacterDetail))
    (ss : List MatchSummary) : ∀ (ids : List String) (out : List MatchDetails),
    getMatchDetailsGo fetch ss ids = Except.ok out →
    out.map (fun md => md.matchId) =
      ids.filter (fun id => (ss.find? (fun s => s.matchId == id)).isSome) ∧
    ∀ md ∈ out, ∃ s, ss.find? (fun x => x.matchId == md.matchId) = some s ∧
      md = mkMatchDetails s md.character_details := by
  intro ids
  induction ids with
  | nil =>
    intro out h
    simp only [getMatchDetailsGo] at h
    have hout : out = [] := (Except.ok.inj h).symm
    subst hout
    exact ⟨by simp, by simp⟩
  | cons id rest ih =>
    intro out h
    simp only [getMatchDetailsGo] at h
    cases hf : fetch id with
    | error e => rw [hf] at h; exact absurd h (by simp)
    | ok cds =>
      rw [hf] at h
      simp only at h
      cases hfind : ss.find? (fun s => s.matchId == id) with
      | some s =>
        rw [hfind] at h
        cases hrec : getMatchDetailsGo fetch ss rest with
        | error e => rw [hrec] at h; exact absurd h (by simp)
        | ok tail =>
          rw [hrec] at h
          simp only at h
          have hout : out = mkMatchDetails s (cds.map normalizeCharacterDetail) :: tail :=
            (Except.ok.inj h).symm
          subst hout
          obtain ⟨ih1, ih2⟩ := ih tail hrec
          have hsid : s.matchId = id := by
            have h2 := List.find?_some hfind
            exact beq_iff_eq.mp h2
          refine ⟨?_, ?_⟩
          · simp only [List.map_cons, List.filter_cons, hfind, Option.isSome_some,
              if_true, ih1]
            simp [mkMatchDetails, hsid]
          · intro md hmd
            rcases List.mem_cons.mp hmd with rfl | hmd2
            · refine ⟨s, ?_, rfl⟩
              show ss.find? (fun x => x.matchId == s.matchId) = some s
              rw [hsid]
              exact hfind
            · exact ih2 md hmd2
      | none =>
        rw [hfind] at h
        obtain ⟨ih1, ih2⟩ := ih out h
        refine ⟨?_, ih2⟩
        rw [ih1]
        simp [List.filter_cons, hfind]

theorem getMatchDetailsGo_error (fetch : String → Except FetchError (List CharacterDetail))
    (ss : List MatchSummary) : ∀ (ids : List String) (id : String), id ∈ ids →
    fetch id = Except.error FetchError.RemoteFetchError →
    getMatchDetailsGo fetch ss ids = Except.error FetchError.RemoteFetchError := by
  intro ids
  induction ids with
  | nil => intro id h; simp at h
  | cons x rest ih =>
    intro id hmem hferr
    simp only [getMatchDetailsGo]
    cases hf : fetch x with
    | error e =>
      cases e
      rfl
    | ok cds =>
      have hx : id ≠ x := by
        intro he
        subst he
        rw [hf] at hferr
        exact absurd hferr (by simp)
      have hmem2 : id ∈ rest := by
        rcases List.mem_cons.mp hmem with rfl | h2
        · exact absurd rfl hx
        · exact h2
      have hrec := ih id hmem2 hferr
      simp only
      cases hfind : ss.find? (fun s => s.matchId == x) with
      | some s => rw [hrec]
      | none => exact hrec

theorem getMatchDetailsGo_total (fetch : String → Except FetchError (List CharacterDetail))
    (ss : List MatchSummary) : ∀ (ids : List String),
    (∀ id ∈ ids, ∃ cds, fetch id = Except.ok cds) →
    ∃ out, getMatchDetailsGo fetch ss ids = Except.ok out := by
  intro ids
  induction ids with
  | nil => intro _; exact ⟨[], rfl⟩
  | cons x rest ih =>
    intro hall
    obtain ⟨cds, hf⟩ := hall x (List.mem_cons_self x rest)
    obtain ⟨out2, hrec⟩ := ih (fun id hid => hall id (List.mem_cons_of_mem x hid))
    cases hfind : ss.find? (fun s => s.matchId == x) with
    | some s =>
      exact ⟨mkMatchDetails s (cds.map normalizeCharacterDetail) :: out2,
        by simp [getMatchDetailsGo, hf, hfind, hrec]⟩
    | none => exact ⟨out2, by simp [getMatchDetailsGo, hf, hfind, hrec]⟩

theorem find?_matchId_isSome (ss : List MatchSummary) :
    ∀ id ∈ ss.map (fun s => s.matchId),
      (ss.find? (fun s => s.matchId == id)).isSome = true := by
  intro id hid
  obtain ⟨s, hs, rfl⟩ := List.mem_map.mp hid
  exact List.find?_isSome.mpr ⟨s, hs, by simp⟩

/-! ### The Field Normalizer as a record equation -/

theorem normalizeChange_empty : normalizeChange ("") = "" := rfl

theorem normalizeCharacterDetail_eq (cd : CharacterDetail) :
    normalizeCharacterDetail cd =
      { cd with
        teamnamerich := String.mk (stripTagsList cd.teamnamerich.data)
        matchmaking_change := cd.matchmaking_change.map normalizeChange
        personal_change := normalizeChange cd.personal_change } := by
  cases hmm : cd.matchmaking_change with
  | none =>
    by_cases hpc : cd.personal_change = ""
    · simp [normalizeCharacterDetail, hmm, hpc, normalizeChange_empty]
    · simp [normalizeCharacterDetail, hmm, hpc]
  | some s =>
    by_cases hs : s = ""
    · subst hs
      by_cases hpc : cd.personal_change = ""
      · simp [normalizeCharacterDetail, hmm, hpc, normalizeChange_empty]
      · simp [normalizeCharacterDetail, hmm, hpc, normalizeChange_empty]
    · by_cases hpc : cd.personal_change = ""
      · simp [normalizeCharacterDetail, hmm, hs, hpc, normalizeChange_empty]
      · simp [normalizeCharacterDetail, hmm, hs, hpc]

theorem getMatchDetails_eq_go
    (fetch : String → Except FetchError (List CharacterDetail))
    (ss : List MatchSummary) :
    getMatchDetails fetch ss =
      getMatchDetailsGo fetch ss (ss.map (fun s => s.matchId)) := rfl

/-! ### Claim theorems -/

/-- C1: For every fetcher and every input summary list, if
`getMatchDetails` succeeds then the output has length at most the input
length, every output record's `matchId` occurs among the `matchId`s of
the input summaries (the join is a filter, never an invention), and
every output record's summary fields equal those of the first input
summary whose `matchId` equals that identifier; an identifier with no
matching summary contributes nothing (every output record originates
from a found summary). -/
theorem getMatchDetails_join_filter
    (fetch : String → Except FetchError (List CharacterDetail))
    (ss : List MatchSummary) (out : List MatchDetails)
    (h : getMatchDetails fetch ss = Except.ok out) :
    out.length ≤ ss.length ∧
    (∀ md ∈ out, ∃ s ∈ ss, s.matchId = md.matchId) ∧
    (∀ md ∈ out, ∃ s, ss.find? (fun x => x.matchId == md.matchId) = some s ∧
      md.team_name = s.team_name ∧ md.bracket = s.bracket ∧
      md.outcome = s.outcome ∧ md.points_change = s.points_change ∧
      md.date = s.date ∧ md.duration = s.duration ∧ md.arena = s.arena) := by
  rw [getMatchDetails_eq_go] at h
  obtain ⟨h1, h2⟩ :=
    getMatchDetailsGo_ok fetch ss (ss.map (fun s => s.matchId)) out h
  refine ⟨?_, ?_, ?_⟩
  · calc out.length = (out.map (fun md => md.matchId)).length :=
          (List.length_map _ _).symm
      _ ≤ (ss.map (fun s => s.matchId)).length := by
          rw [h1]
          exact List.length_filter_le _ _
      _ = ss.length := List.length_map _ _
  · intro md hmd
    obtain ⟨s, hfind, _⟩ := h2 md hmd
    have hb := List.find?_some hfind
    exact ⟨s, List.mem_of_find?_eq_some hfind, beq_iff_eq.mp hb⟩
  · intro md hmd
    obtain ⟨s, hfind, hmdeq⟩ := h2 md hmd
    refine ⟨s, hfind, ?_, ?_, ?_, ?_, ?_, ?_, ?_⟩ <;> rw [hmdeq] <;> rfl

/-- C1 witness: the hypotheses and conclusion instantiated at the
concrete sample fetcher and a one-summary list. -/
theorem getMatchDetails_join_filter_witness :
    getMatchDetails sampleFetch [sampleSummary ("A")] = Except.ok sampleOut ∧
    (sampleOut.length ≤ [sampleSummary ("A")].length ∧
     (∀ md ∈ sampleOut, ∃ s ∈ [sampleSummary ("A")], s.matchId = md.matchId) ∧
     (∀ md ∈ sampleOut, ∃ s,
        [sampleSummary ("A")].find? (fun x => x.matchId == md.matchId) = some s ∧
        md.team_name = s.team_name ∧ md.bracket = s.bracket ∧
        md.outcome = s.outcome ∧ md.points_change = s.points_change ∧
        md.date = s.date ∧ md.duration = s.duration ∧ md.arena = s.arena)) :=
  ⟨rfl, getMatchDetails_join_filter sampleFetch [sampleSummary ("A")] sampleOut rfl⟩

/-- C2: if `getMatchDetails` succeeds (all fetches succeeded), the
sequence of output `matchId`s equals, in order, the subsequence of input
`matchId`s that have a matching summary — and since the identifiers are
extracted from the input summaries themselves, that subsequence is the
whole input identifier sequence. -/
theorem getMatchDetails_order_preserved
    (fetch : String → Except FetchError (List CharacterDetail))
    (ss : List MatchSummary) (out : List MatchDetails)
    (h : getMatchDetails fetch ss = Except.ok out) :
    out.map (fun md => md.matchId) =
      (ss.map (fun s => s.matchId)).filter
        (fun id => (ss.find? (fun s => s.matchId == id)).isSome) ∧
    out.map (fun md => md.matchId) = ss.map (fun s => s.matchId) := by
  rw [getMatchDetails_eq_go] at h
  have h1 :=
    (getMatchDetailsGo_ok fetch ss (ss.map (fun s => s.matchId)) out h).1
  refine ⟨h1, ?_⟩
  rw [h1]
  exact List.filter_eq_self.mpr (find?_matchId_isSome ss)

/-- C2 witness: concrete instantiation with a two-summary list. -/
theorem getMatchDetails_order_preserved_witness :
    getMatchDetailsGo sampleFetch [sampleSummary ("A"), sampleSummary ("B")]
      ["A", "B"] =
      Except.ok
        [mkMatchDetails (sampleSummary ("A")) [normalizeCharacterDetail sampleDetail],
         mkMatchDetails (sampleSummary ("B")) [normalizeCharacterDetail sampleDetail]] ∧
    ([mkMatchDetails (sampleSummary ("A")) [normalizeCharacterDetail sampleDetail],
      mkMatchDetails (sampleSummary ("B")) [normalizeCharacterDetail sampleDetail]].map
        (fun md => md.matchId) =
      ([sampleSummary ("A"), sampleSummary ("B")].map (fun s => s.matchId)).filter
        (fun id =>
          ([sampleSummary ("A"), sampleSummary ("B")].find?
            (fun s => s.matchId == id)).isSome) ∧
     [mkMatchDetails (sampleSummary ("A")) [normalizeCharacterDetail sampleDetail],
      mkMatchDetails (sampleSummary ("B")) [normalizeCharacterDetail sampleDetail]].map
        (fun md => md.matchId) =
      [sampleSummary ("A"), sampleSummary ("B")].map (fun s => s.matchId)) :=
  ⟨rfl, getMatchDetails_order_preserved sampleFetch
    [sampleSummary ("A"), sampleSummary ("B")] _ rfl⟩

/-- C3: if the fetcher fails with `RemoteFetchError` for any identifier
appearing in the input summaries, the whole `getMatchDetails` call fails
with `RemoteFetchError`, and no partial list is ever returned. -/
theorem getMatchDetails_error_aborts
    (fetch : String → Except FetchError (List CharacterDetail))
    (ss : List MatchSummary) (id : String)
    (hmem : id ∈ ss.map (fun s => s.matchId))
    (hf : fetch id = Except.error FetchError.RemoteFetchError) :
    getMatchDetails fetch ss = Except.error FetchError.RemoteFetchError ∧
    ∀ out : List MatchDetails, getMatchDetails fetch ss ≠ Except.ok out := by
  have he :=
    getMatchDetailsGo_error fetch ss (ss.map (fun s => s.matchId)) id hmem hf
  rw [getMatchDetails_eq_go]
  refine ⟨he, ?_⟩
  intro out hout
  rw [he] at hout
  exact absurd hout (by simp)

/-- C3 witness: a fetcher that fails only for identifier `B`, applied to
summaries `A`, `B`: the whole call fails and no `ok` value (such as a
list containing only the `A` record) is returned. -/
theorem getMatchDetails_error_aborts_witness :
    ("B" ∈ ([sampleSummary ("A"), sampleSummary ("B")].map (fun s => s.matchId)) ∧
     failFetchB ("B") = Except.error FetchError.RemoteFetchError) ∧
    (getMatchDetails failFetchB [sampleSummary ("A"), sampleSummary ("B")] =
       Except.error FetchError.RemoteFetchError ∧
     ∀ out : List MatchDetails,
       getMatchDetails failFetchB [sampleSummary ("A"), sampleSummary ("B")] ≠
         Except.ok out) :=
  ⟨⟨by decide, rfl⟩,
    getMatchDetails_error_aborts failFetchB
      [sampleSummary ("A"), sampleSummary ("B")] ("B") (by decide) rfl⟩

/-- C10: if every fetch for an identifier of the input list succeeds,
`getMatchDetails` succeeds and its output length equals the input length
exactly (one record per input summary, duplicates included): the
identifier list is extracted from the summaries themselves, so the
summary lookup always succeeds and the skip branch is unreachable. -/
theorem getMatchDetails_length_eq
    (fetch : String → Except FetchError (List CharacterDetail))
    (ss : List MatchSummary)
    (hall : ∀ id ∈ ss.map (fun s => s.matchId), ∃ cds, fetch id = Except.ok cds) :
    (∀ id ∈ ss.map (fun s => s.matchId),
      (ss.find? (fun s => s.matchId == id)).isSome = true) ∧
    ∃ out, getMatchDetails fetch ss = Except.ok out ∧ out.length = ss.length := by
  refine ⟨find?_matchId_isSome ss, ?_⟩
  obtain ⟨out, hout⟩ :=
    getMatchDetailsGo_total fetch ss (ss.map (fun s => s.matchId)) hall
  refine ⟨out, by rw [getMatchDetails_eq_go]; exact hout, ?_⟩
  have h1 :=
    (getMatchDetailsGo_ok fetch ss (ss.map (fun s => s.matchId)) out hout).1
  calc out.length = (out.map (fun md => md.matchId)).length :=
        (List.length_map _ _).symm
    _ = (ss.map (fun s => s.matchId)).length := by
        rw [h1, List.filter_eq_self.mpr (find?_matchId_isSome ss)]
    _ = ss.length := List.length_map _ _

/-- C10 witness: a list with a duplicated `matchId` still yields one
output record per input summary. -/
theorem getMatchDetails_length_eq_witness :
    (∀ id ∈ ([sampleSummary ("A"), sampleSummary ("A")].map (fun s => s.matchId)),
      ∃ cds, sampleFetch id = Except.ok cds) ∧
    ((∀ id ∈ ([sampleSummary ("A"), sampleSummary ("A")].map (fun s => s.matchId)),
       (([sampleSummary ("A"), sampleSummary ("A")].find?
          (fun s => s.matchId == id)).isSome = true)) ∧
     ∃ out, getMatchDetails sampleFetch [sampleSummary ("A"), sampleSummary ("A")] =
       Except.ok out ∧
       out.length = [sampleSummary ("A"), sampleSummary ("A")].length) :=
  ⟨fun _ _ => ⟨[sampleDetail], rfl⟩,
    getMatchDetails_length_eq sampleFetch [sampleSummary ("A"), sampleSummary ("A")]
      (fun _ _ => ⟨[sampleDetail], rfl⟩)⟩

/-- C4: for every CharacterDetail, each present change field is rewritten
to `"<delta> (<overall>)"` exactly when both extractions succeed, and is
left equal to its raw value when either extraction fails; the raw value
`"200 (<span>+15</span>)"` (delta `+15`, overall `200` in
markup-embedded form) normalizes to exactly `"+15 (200)"`. -/
theorem change_field_normalization :
    (∀ cd : CharacterDetail,
      (normalizeCharacterDetail cd).personal_change =
        normalizeChange cd.personal_change ∧
      (normalizeCharacterDetail cd).matchmaking_change =
        cd.matchmaking_change.map normalizeChange) ∧
    (∀ s : String, ∀ d o : List Char,
      findChange s.data = some d → findOverall s.data = some o →
      normalizeChange s = String.mk d ++ " (" ++ String.mk o ++ ")") ∧
    (∀ s : String, findChange s.data = none ∨ findOverall s.data = none →
      normalizeChange s = s) ∧
    normalizeChange ("200 (<span>+15</span>)") = "+15 (200)" := by
  refine ⟨?_, ?_, ?_, by decide⟩
  · intro cd
    rw [normalizeCharacterDetail_eq]
    exact ⟨rfl, rfl⟩
  · intro s d o h1 h2
    simp [normalizeChange, h1, h2]
  · intro s h
    rcases h with h | h
    · simp [normalizeChange, h]
    · cases hfc : findChange s.data with
      | none => simp [normalizeChange, hfc]
      | some d => simp [normalizeChange, hfc, h]

/-- C4 witness: the extraction results on the concrete raw value and the
normalized output obtained from the theorem. -/
theorem change_field_normalization_witness :
    (findChange ("200 (<span>+15</span>)".data) = some ("+15".data) ∧
     findOverall ("200 (<span>+15</span>)".data) = some ("200".data)) ∧
    normalizeChange ("200 (<span>+15</span>)") =
      String.mk ("+15".data) ++ " (" ++ String.mk ("200".data) ++ ")" :=
  ⟨⟨by decide, by decide⟩,
    change_field_normalization.2.1 ("200 (<span>+15</span>)") ("+15".data)
      ("200".data) (by decide) (by decide)⟩

/-- C5 (counterexample): in `"200<span>"` a run of digits immediately
precedes the markup open tag `<span>`, yet the overall extraction fails —
`overallRegex` demands the literal `(<span` (opening parenthesis included)
after the digits and optional whitespace, so the claim's characterization
("a run of digits immediately preceding a markup open tag") is false at
this input. -/
theorem overall_open_tag_counterexample :
    "200<span>".data = "200".data ++ "<span>".data ∧
    ("200".data ≠ [] ∧ ∀ d ∈ ("200".data), d.isDigit = true) ∧
    findOverall ("200<span>".data) = none := by
  exact ⟨rfl, ⟨by decide, by decide⟩, by decide⟩

/-- C5 (amended): the delta extraction succeeds exactly when the value
contains a sign (`+` or `-`) followed by digits immediately preceding
the literal close-tag text `</span`; the overall extraction succeeds
exactly when the value contains a run of digits (optionally preceded by
`-`) followed by optional whitespace and then the literal text `(<span`. -/
theorem regex_extraction_success_iff (s : List Char) :
    ((findChange s).isSome = true ↔ changeSpec s) ∧
    ((findOverall s).isSome = true ↔ overallSpec s) :=
  ⟨findChange_isSome_iff s, findOverall_isSome_iff s⟩

/-- C5 witness: the characterization evaluated on concrete values in both
directions. -/
theorem regex_extraction_success_iff_witness :
    changeSpec ("+15</span>".data) ∧ overallSpec ("200 (<span>".data) :=
  ⟨(regex_extraction_success_iff ("+15</span>".data)).1.mp (by decide),
   (regex_extraction_success_iff ("200 (<span>".data)).2.mp (by decide)⟩

/-- C6: normalization replaces every markup tag span `<...>` (an opening
angle bracket, one or more non-`>` characters, and the first closing
angle bracket) in `teamnamerich` by the empty string and keeps every
character outside such spans; in particular
`"<span>Team Alpha</span>"` normalizes to `"Team Alpha"`. -/
theorem teamnamerich_strip_tags :
    (∀ cd : CharacterDetail, (normalizeCharacterDetail cd).teamnamerich =
      String.mk (stripTagsList cd.teamnamerich.data)) ∧
    (∀ t r : List Char, t ≠ [] → (∀ c ∈ t, c ≠ '>') →
      stripTagsList ('<' :: (t ++ '>' :: r)) = stripTagsList r) ∧
    (∀ (c : Char) (l : List Char), c ≠ '<' →
      stripTagsList (c :: l) = c :: stripTagsList l) ∧
    String.mk (stripTagsList ("<span>Team Alpha</span>".data)) = "Team Alpha" := by
  refine ⟨?_, ?_, ?_, by decide⟩
  · intro cd
    rw [normalizeCharacterDetail_eq]
  · intro t r ht h
    rw [stripTagsList_tag (scanTag_of ht h)]
  · intro c l h
    exact stripTagsList_cons_ne h

/-- C6 witness: one tag span removed at a concrete instantiation. -/
theorem teamnamerich_strip_tags_witness :
    (('s' :: []) ≠ ([] : List Char) ∧ ∀ c ∈ ('s' :: []), c ≠ '>') ∧
    stripTagsList ('<' :: (('s' :: []) ++ '>' :: ('x' :: []))) =
      stripTagsList ('x' :: []) :=
  ⟨⟨by decide, by decide⟩,
    teamnamerich_strip_tags.2.1 ('s' :: []) ('x' :: []) (by decide) (by decide)⟩

/-- C7: the team/bracket split follows the pattern `<name> (<NvN>)`:
`"Alpha Strike (2v2)"` yields team name `"Alpha Strike"` and bracket
`"2v2"`, and any text on which the pattern finds no match yields two
empty strings without raising an error. -/
theorem team_bracket_split :
    splitTeamBracket ("Alpha Strike (2v2)") = ("Alpha Strike", "2v2") ∧
    (∀ s : String, tbSearch s.data = none → splitTeamBracket s = ("", "")) ∧
    splitTeamBracket ("Alpha Strike") = ("", "") := by
  refine ⟨by decide, ?_, by decide⟩
  intro s h
  by_cases hs : s = ""
  · simp [splitTeamBracket, hs]
  · simp [splitTeamBracket, hs, h]

/-- C7 witness: the no-match case instantiated at a concrete text. -/
theorem team_bracket_split_witness :
    tbSearch ("no bracket here".data) = none ∧
    splitTeamBracket ("no bracket here") = ("", "") :=
  ⟨by decide, team_bracket_split.2.1 ("no bracket here") (by decide)⟩

/-- C8: normalization modifies at most `teamnamerich`,
`matchmaking_change` and `personal_change`; every other field is
unchanged, an absent `matchmaking_change` stays absent, and an empty
change field stays empty — normalization never invents a value. -/
theorem normalization_frame (cd : CharacterDetail) :
    (normalizeCharacterDetail cd).realm = cd.realm ∧
    (normalizeCharacterDetail cd).charname = cd.charname ∧
    (normalizeCharacterDetail cd).«class» = cd.«class» ∧
    (normalizeCharacterDetail cd).race = cd.race ∧
    (normalizeCharacterDetail cd).gender = cd.gender ∧
    (normalizeCharacterDetail cd).teamname = cd.teamname ∧
    (normalizeCharacterDetail cd).damageDone = cd.damageDone ∧
    (normalizeCharacterDetail cd).deaths = cd.deaths ∧
    (normalizeCharacterDetail cd).healingDone = cd.healingDone ∧
    (normalizeCharacterDetail cd).killingBlows = cd.killingBlows ∧
    (cd.matchmaking_change = none →
      (normalizeCharacterDetail cd).matchmaking_change = none) ∧
    (cd.matchmaking_change = some ("") →
      (normalizeCharacterDetail cd).matchmaking_change = some ("")) ∧
    (cd.personal_change = "" →
      (normalizeCharacterDetail cd).personal_change = "") := by
  rw [normalizeCharacterDetail_eq]
  refine ⟨rfl, rfl, rfl, rfl, rfl, rfl, rfl, rfl, rfl, rfl, ?_, ?_, ?_⟩
  · intro h
    simp [h]
  · intro h
    simp [h, normalizeChange_empty]
  · intro h
    simp [h, normalizeChange_empty]

/-- C8 witness: the frame conditions at the sample detail, whose
`matchmaking_change` is absent. -/
theorem normalization_frame_witness :
    sampleDetail.matchmaking_change = none ∧
    (normalizeCharacterDetail sampleDetail).realm = sampleDetail.realm ∧
    (normalizeCharacterDetail sampleDetail).matchmaking_change = none :=
  ⟨rfl, (normalization_frame sampleDetail).1,
    ((normalization_frame sampleDetail).2.2.2.2.2.2.2.2.2.2.1) rfl⟩
